import Mathlib

/-!
Shallow embedding of the atomic-weight calculator repository.

Python strings are modelled as lists of Unicode code points (`List Nat`);
Python floats are modelled as exact rationals (`ℚ`); raising an exception is
modelled by returning `Except.error`.

Source files embedded:
* `atomic_weight_from_weight_percent.py` — the weight-percent calculator;
* `isotopes_db.py` — the isotope record, the built-in Sn seed table,
  the CSV loader's row logic, and the natural atomic-weight calculator.
-/

namespace AtomicWeightRepo

/-- A Python string as its list of code points. -/
abbrev PyStr := List Nat

/-- The characters Python's `str.strip()` removes: space, tab, newline,
carriage return, vertical tab, form feed. -/
def pyIsSpace (c : Nat) : Bool :=
  c == 32 || c == 9 || c == 10 || c == 13 || c == 11 || c == 12

/-- Python `str.strip()`: drop whitespace from both ends. -/
def pyStrip (s : PyStr) : PyStr :=
  ((s.dropWhile pyIsSpace).reverse.dropWhile pyIsSpace).reverse

/-- Python `str.upper` on one character (ASCII range, as used for element symbols). -/
def pyToUpper (c : Nat) : Nat :=
  if 97 ≤ c ∧ c ≤ 122 then c - 32 else c

/-- Python `str.lower` on one character (ASCII range, as used for element symbols). -/
def pyToLower (c : Nat) : Nat :=
  if 65 ≤ c ∧ c ≤ 90 then c + 32 else c

/-- Python `str.lower()` on a whole string. -/
def pyLower (s : PyStr) : PyStr := s.map pyToLower

/-- Python `str.capitalize()`: first character upper-cased, the rest lower-cased. -/
def pyCapitalize : PyStr → PyStr
  | [] => []
  | c :: cs => pyToUpper c :: cs.map pyToLower

/-- Python `abs` on a float, over the exact rationals. -/
def pyAbs (q : ℚ) : ℚ := if q < 0 then -q else q

/-! ### The weight-percent calculator (`atomic_weight_from_weight_percent.py`) -/

/-- The distinct errors `atomic_weight_from_weight_percent` can raise.  In the
source the first four are `ValueError`s with distinct messages and the last is
a `ZeroDivisionError`; the spec names them as this taxonomy. -/
inductive CompError where
  | shapeMismatch
  | invalidMass
  | invalidWeight
  | degenerateInput
  | zeroDenominator
deriving DecidableEq

/-- Embedding of `sum((w / m) for w, m in zip(ws, ms))`. -/
def sumDiv (ws ms : List ℚ) : ℚ :=
  ((ws.zip ms).map (fun p => p.1 / p.2)).sum

/-- Embedding of `atomic_weight_from_weight_percent(masses_u, weight_percents)`. -/
def atomic_weight_from_weight_percent (masses_u weight_percents : List ℚ) :
    Except CompError ℚ :=
  if masses_u.length ≠ weight_percents.length then .error .shapeMismatch
  else if masses_u.any (fun m => m ≤ 0) then .error .invalidMass
  else if weight_percents.any (fun w => w < 0) then .error .invalidWeight
  else
    let total := weight_percents.sum
    if total = 0 then .error .degenerateInput
    else if pyAbs (total - 100) < 1 then
      let denom := sumDiv weight_percents masses_u
      if denom = 0 then .error .zeroDenominator
      else .ok (total / denom)
    else
      let w_frac := weight_percents.map (fun w => w / total)
      let denom := sumDiv w_frac masses_u
      if denom = 0 then .error .zeroDenominator
      else .ok (1 / denom)

/-! ### The isotope database (`isotopes_db.py`) -/

/-- The frozen dataclass `Isotope`. -/
structure Isotope where
  element : PyStr
  symbol : PyStr
  A : ℤ
  mass_u : ℚ
  abundance_percent : ℚ
  stable : Bool := true
deriving DecidableEq

/-- An isotope table: Python's insertion-ordered `dict` from symbol to
isotope list, as an association list with unique keys in insertion order. -/
abbrev IsoTable := List (PyStr × List Isotope)

/-- Dict lookup `db[sym]` / `sym in db` combined: first (only) binding of `sym`. -/
def dbLookup (sym : PyStr) : IsoTable → Option (List Isotope)
  | [] => none
  | (s, l) :: rest => if s = sym then some l else dbLookup sym rest

/-- The errors `atomic_weight` can raise: `KeyError` for a missing symbol,
`ValueError` for inconsistent abundances.  Each carries the data interpolated
into the source's message: the (canonical) symbol, and for the inconsistency
error also the observed abundance sum. -/
inductive DBError where
  | notFound (symbol : PyStr)
  | dataInconsistency (symbol : PyStr) (total : ℚ)
deriving DecidableEq

/-- The symbol normalization at the head of `atomic_weight`:
`symbol = symbol.strip().capitalize() if len(symbol)<=2 else symbol.strip()`,
then re-case by the length of the result. -/
def canonSymbol (s : PyStr) : PyStr :=
  let s1 := if s.length ≤ 2 then pyCapitalize (pyStrip s) else pyStrip s
  match s1 with
  | [a] => [pyToUpper a]
  | [a, b] => [pyToUpper a, pyToLower b]
  | t => t

/-- Embedding of the body of `atomic_weight(symbol, db)` after the
substitution `db = db or get_database()`: the table argument here is the
already-substituted (truthy) table.  The full entry point, fallback
included, is `atomic_weight_py` below (it needs the loader, which is
defined further down); the symbol normalization commutes with the table
substitution, so the source function factors through this body. -/
def atomic_weight (symbol : PyStr) (db : IsoTable) : Except DBError ℚ :=
  let sym := canonSymbol symbol
  match dbLookup sym db with
  | none => .error (.notFound sym)
  | some isotopes =>
    let total_abund := (isotopes.map (fun i => i.abundance_percent)).sum
    if pyAbs (total_abund - 100) > 1/2 then
      .error (.dataInconsistency sym total_abund)
    else
      .ok ((isotopes.map (fun i => i.abundance_percent / 100 * i.mass_u)).sum)

/-- Code points of the element name Tin. -/
def tinName : PyStr := [84, 105, 110]

/-- Code points of the symbol Sn. -/
def snSym : PyStr := [83, 110]

/-- The ten tin isotopes of the built-in seed. -/
def snIsos : List Isotope :=
  [⟨tinName, snSym, 112, 111.90482387, 0.97, true⟩,
   ⟨tinName, snSym, 114, 113.9027827, 0.66, true⟩,
   ⟨tinName, snSym, 115, 114.903344699, 0.34, true⟩,
   ⟨tinName, snSym, 116, 115.90174280, 14.54, true⟩,
   ⟨tinName, snSym, 117, 116.90295398, 7.68, true⟩,
   ⟨tinName, snSym, 118, 117.90160657, 24.22, true⟩,
   ⟨tinName, snSym, 119, 118.90331117, 8.59, true⟩,
   ⟨tinName, snSym, 120, 119.90220163, 32.58, true⟩,
   ⟨tinName, snSym, 122, 121.9034438, 4.63, true⟩,
   ⟨tinName, snSym, 124, 123.9052766, 5.79, true⟩]

/-- The built-in seed table `_SEED` (tin). -/
def seedDB : IsoTable := [(snSym, snIsos)]

/-! ### The CSV loader's row logic (`load_csv`) -/

/-- One row handed to `load_csv` by `csv.DictReader`, with the type coercions
of the `try` block already applied to the four typed fields (they either all
succeed, or the loader raises for the whole file); the `stable` field is kept
raw because the stability filter runs on the raw string, and is `none` when
the key is absent from the row (then `row.get("stable", "True")` yields the
default `"True"`). -/
structure CSVRow where
  element : PyStr
  symbol : PyStr
  A : ℤ
  mass_u : ℚ
  abundance_percent : ℚ
  stable : Option PyStr
deriving DecidableEq

/-- Code points of the default marker (capital-T True) used when the
field is absent. -/
def defaultStable : PyStr := [84, 114, 117, 101]

/-- The accepted stability markers `{"true", "1", "yes", "y"}`. -/
def trueMarkers : List PyStr :=
  [[116, 114, 117, 101], [49], [121, 101, 115], [121]]

/-- The loader's filter:
`str(row.get("stable", "True")).strip().lower() in {"true","1","yes","y"}`. -/
def rowStableOk (r : CSVRow) : Bool :=
  trueMarkers.contains (pyLower (pyStrip (r.stable.getD defaultStable)))

/-- Building the `Isotope` from a row inside the `try` block
(`stable = True` is hard-coded there). -/
def rowToIso (r : CSVRow) : Isotope :=
  { element := pyStrip r.element
    symbol := pyStrip r.symbol
    A := r.A
    mass_u := r.mass_u
    abundance_percent := r.abundance_percent
    stable := true }

/-- Embedding of `db.setdefault(iso.symbol, []).append(iso)` on the dict:
append to the existing binding, or append a new binding at the end. -/
def dbInsert (db : IsoTable) (iso : Isotope) : IsoTable :=
  match db with
  | [] => [(iso.symbol, [iso])]
  | (s, l) :: rest =>
    if s = iso.symbol then (s, l ++ [iso]) :: rest
    else (s, l) :: dbInsert rest iso

/-- Embedding of `load_csv` from the row list a `DictReader` would produce:
filter by the stability marker, accumulate into the dict, then sort each
element's list by mass number (Python's `sorted` with `key=lambda x: x.A`). -/
def load_csv (rows : List CSVRow) : IsoTable :=
  let db := rows.foldl
    (fun db r => if rowStableOk r then dbInsert db (rowToIso r) else db) []
  db.map (fun p => (p.1, List.insertionSort (fun x y => x.A ≤ y.A) p.2))

/-- All isotope records stored in a table, in table order. -/
def allIsos (db : IsoTable) : List Isotope := (db.map Prod.snd).flatten

/-- Embedding of `get_database(csv_path)`: load the CSV when the file exists
(`csvFile = some rows` holds the rows its reader would yield, `none` means
the file is missing, where `load_csv` returns the empty dict); a falsy
(empty) result falls back to the seed. -/
def get_database (csvFile : Option (List CSVRow)) : IsoTable :=
  let db := match csvFile with
    | none => []
    | some rows => load_csv rows
  if db = [] then seedDB else db

/-- Full embedding of `atomic_weight(symbol, db=None)` including the line
`db = db or get_database()`: a falsy `db` — `None` (`db = none` here) or the
empty dict — is replaced by the default database before the lookup. -/
def atomic_weight_py (symbol : PyStr) (db : Option IsoTable)
    (csvFile : Option (List CSVRow)) : Except DBError ℚ :=
  let subst := match db with
    | none => get_database csvFile
    | some d => if d = [] then get_database csvFile else d
  atomic_weight symbol subst

/-! ### Helper lemmas: characters and stripping -/

theorem pyToUpper_idem (c : Nat) : pyToUpper (pyToUpper c) = pyToUpper c := by
  unfold pyToUpper
  split_ifs <;> omega

theorem pyToLower_idem (c : Nat) : pyToLower (pyToLower c) = pyToLower c := by
  unfold pyToLower
  split_ifs <;> omega

theorem pyIsSpace_pyToUpper (c : Nat) (h : pyIsSpace c = false) :
    pyIsSpace (pyToUpper c) = false := by
  unfold pyToUpper
  split_ifs with h1
  · simp only [pyIsSpace, Bool.or_eq_false_iff, beq_eq_false_iff_ne, ne_eq] at h ⊢
    omega
  · exact h

theorem pyIsSpace_pyToLower (c : Nat) (h : pyIsSpace c = false) :
    pyIsSpace (pyToLower c) = false := by
  unfold pyToLower
  split_ifs with h1
  · simp only [pyIsSpace, Bool.or_eq_false_iff, beq_eq_false_iff_ne, ne_eq] at h ⊢
    omega
  · exact h

theorem dropWhile_eq_cons_head_false {α : Type} (p : α → Bool) (l : List α)
    (c : α) (t : List α) (h : l.dropWhile p = c :: t) : p c = false := by
  induction l with
  | nil => simp at h
  | cons x xs ih =>
    by_cases hx : p x
    · rw [List.dropWhile_cons, if_pos hx] at h
      exact ih h
    · rw [List.dropWhile_cons, if_neg hx] at h
      obtain ⟨rfl, rfl⟩ := List.cons.injEq .. ▸ h
      simpa using hx

theorem pyStrip_singleton_no_space (s : PyStr) (a : Nat) (h : pyStrip s = [a]) :
    pyIsSpace a = false := by
  unfold pyStrip at h
  have hu : (s.dropWhile pyIsSpace).reverse.dropWhile pyIsSpace = [a] := by
    rw [← List.reverse_reverse ((s.dropWhile pyIsSpace).reverse.dropWhile pyIsSpace), h]
    rfl
  exact dropWhile_eq_cons_head_false _ _ _ _ hu

theorem pyStrip_pair_no_space (s : PyStr) (a b : Nat) (h : pyStrip s = [a, b]) :
    pyIsSpace a = false ∧ pyIsSpace b = false := by
  unfold pyStrip at h
  have hu : (s.dropWhile pyIsSpace).reverse.dropWhile pyIsSpace = [b, a] := by
    rw [← List.reverse_reverse ((s.dropWhile pyIsSpace).reverse.dropWhile pyIsSpace), h]
    rfl
  have hb : pyIsSpace b = false := dropWhile_eq_cons_head_false _ _ _ _ hu
  have hsplit := List.takeWhile_append_dropWhile (p := pyIsSpace)
    (l := (s.dropWhile pyIsSpace).reverse)
  rw [hu] at hsplit
  have hv : s.dropWhile pyIsSpace =
      ((s.dropWhile pyIsSpace).reverse.takeWhile pyIsSpace ++ [b, a]).reverse := by
    rw [hsplit, List.reverse_reverse]
  have hdrop : s.dropWhile pyIsSpace =
      a :: b :: ((s.dropWhile pyIsSpace).reverse.takeWhile pyIsSpace).reverse := by
    conv_lhs => rw [hv]
    simp
  exact ⟨dropWhile_eq_cons_head_false _ _ _ _ hdrop, hb⟩

theorem pyStrip_fixed_one (a : Nat) (ha : pyIsSpace a = false) : pyStrip [a] = [a] := by
  simp [pyStrip, List.dropWhile_cons, ha]

theorem pyStrip_fixed_two (a b : Nat) (ha : pyIsSpace a = false)
    (hb : pyIsSpace b = false) : pyStrip [a, b] = [a, b] := by
  simp [pyStrip, List.dropWhile_cons, ha, hb]

/-! ### Helper lemmas: `pyAbs` and `sumDiv` -/

theorem pyAbs_eq_abs (q : ℚ) : pyAbs q = |q| := by
  unfold pyAbs
  split_ifs with h
  · exact (abs_of_neg h).symm
  · exact (abs_of_nonneg (not_lt.1 h)).symm

@[simp] theorem sumDiv_nil_left (ms : List ℚ) : sumDiv [] ms = 0 := by
  simp [sumDiv]

@[simp] theorem sumDiv_nil_right (ws : List ℚ) : sumDiv ws [] = 0 := by
  simp [sumDiv]

@[simp] theorem sumDiv_cons (w m : ℚ) (ws ms : List ℚ) :
    sumDiv (w :: ws) (m :: ms) = w / m + sumDiv ws ms := by
  simp [sumDiv]

theorem sumDiv_nonneg : ∀ ws ms : List ℚ, (∀ w ∈ ws, 0 ≤ w) → (∀ m ∈ ms, 0 < m) →
    0 ≤ sumDiv ws ms := by
  intro ws
  induction ws with
  | nil => intro ms _ _; simp
  | cons w ws ih =>
    intro ms hw hm
    cases ms with
    | nil => simp
    | cons m ms =>
      rw [sumDiv_cons]
      have h1 : 0 ≤ w / m :=
        div_nonneg (hw w (List.mem_cons_self w ws)) (le_of_lt (hm m (List.mem_cons_self m ms)))
      have h2 : 0 ≤ sumDiv ws ms :=
        ih ms (fun x hx => hw x (List.mem_cons_of_mem w hx))
          (fun x hx => hm x (List.mem_cons_of_mem m hx))
      linarith

theorem sumDiv_pos : ∀ ws ms : List ℚ, ws.length = ms.length → (∀ w ∈ ws, 0 ≤ w) →
    (∀ m ∈ ms, 0 < m) → ws.sum ≠ 0 → 0 < sumDiv ws ms := by
  intro ws
  induction ws with
  | nil => intro ms _ _ _ hs; simp at hs
  | cons w ws ih =>
    intro ms hlen hw hm hs
    cases ms with
    | nil => simp at hlen
    | cons m ms =>
      rw [sumDiv_cons]
      have hw0 : 0 ≤ w := hw w (List.mem_cons_self w ws)
      have hwrest : ∀ x ∈ ws, 0 ≤ x := fun x hx => hw x (List.mem_cons_of_mem w hx)
      have hmrest : ∀ x ∈ ms, 0 < x := fun x hx => hm x (List.mem_cons_of_mem m hx)
      rcases eq_or_lt_of_le hw0 with heq | hlt
      · have hrest : ws.sum ≠ 0 := by
          rw [List.sum_cons, ← heq, zero_add] at hs
          exact hs
        have := ih ms (by simpa using hlen) hwrest hmrest hrest
        rw [← heq, zero_div, zero_add]
        exact this
      · have h1 : 0 < w / m := div_pos hlt (hm m (List.mem_cons_self m ms))
        have h2 : 0 ≤ sumDiv ws ms := sumDiv_nonneg ws ms hwrest hmrest
        linarith

theorem sumDiv_map_div : ∀ ws ms : List ℚ, ∀ t : ℚ,
    sumDiv (ws.map (fun w => w / t)) ms = sumDiv ws ms / t := by
  intro ws
  induction ws with
  | nil => intro ms t; simp
  | cons w ws ih =>
    intro ms t
    cases ms with
    | nil => simp
    | cons m ms =>
      simp only [List.map_cons, sumDiv_cons, ih, add_div, div_right_comm]

theorem sumDiv_le_sum_div : ∀ ws ms : List ℚ, ∀ c : ℚ, 0 < c →
    ws.length = ms.length → (∀ w ∈ ws, 0 ≤ w) → (∀ m ∈ ms, c ≤ m) →
    sumDiv ws ms ≤ ws.sum / c := by
  intro ws
  induction ws with
  | nil => intro ms c _ _ _ _; simp
  | cons w ws ih =>
    intro ms c hc hlen hw hm
    cases ms with
    | nil => simp at hlen
    | cons m ms =>
      rw [sumDiv_cons, List.sum_cons, add_div]
      have hw0 : 0 ≤ w := hw w (List.mem_cons_self w ws)
      have hm0 : c ≤ m := hm m (List.mem_cons_self m ms)
      have h1 : w / m ≤ w / c := by gcongr
      have h2 : sumDiv ws ms ≤ ws.sum / c :=
        ih ms c hc (by simpa using hlen) (fun x hx => hw x (List.mem_cons_of_mem w hx))
          (fun x hx => hm x (List.mem_cons_of_mem m hx))
      linarith

theorem sum_div_le_sumDiv : ∀ ws ms : List ℚ, ∀ C : ℚ,
    ws.length = ms.length → (∀ w ∈ ws, 0 ≤ w) → (∀ m ∈ ms, 0 < m ∧ m ≤ C) →
    ws.sum / C ≤ sumDiv ws ms := by
  intro ws
  induction ws with
  | nil => intro ms C _ _ _; simp
  | cons w ws ih =>
    intro ms C hlen hw hm
    cases ms with
    | nil => simp at hlen
    | cons m ms =>
      rw [sumDiv_cons, List.sum_cons, add_div]
      have hw0 : 0 ≤ w := hw w (List.mem_cons_self w ws)
      obtain ⟨hm0, hmC⟩ := hm m (List.mem_cons_self m ms)
      have h1 : w / C ≤ w / m := by gcongr
      have h2 : ws.sum / C ≤ sumDiv ws ms :=
        ih ms C (by simpa using hlen) (fun x hx => hw x (List.mem_cons_of_mem w hx))
          (fun x hx => hm x (List.mem_cons_of_mem m hx))
      linarith

/-! ### Helper lemmas: evaluating `atomic_weight_from_weight_percent` -/

theorem any_nonpos_eq_false_iff (ms : List ℚ) :
    (ms.any (fun m => m ≤ 0)) = false ↔ ∀ m ∈ ms, 0 < m := by
  simp [List.any_eq_false, not_le]

theorem any_neg_eq_false_iff (ws : List ℚ) :
    (ws.any (fun w => w < 0)) = false ↔ ∀ w ∈ ws, 0 ≤ w := by
  simp [List.any_eq_false, not_lt]

theorem awfwp_shape (ms ws : List ℚ) (h : ms.length ≠ ws.length) :
    atomic_weight_from_weight_percent ms ws = .error .shapeMismatch := by
  unfold atomic_weight_from_weight_percent
  rw [if_pos h]

theorem awfwp_invalidMass (ms ws : List ℚ) (hlen : ms.length = ws.length)
    (h : (ms.any (fun m => m ≤ 0)) = true) :
    atomic_weight_from_weight_percent ms ws = .error .invalidMass := by
  unfold atomic_weight_from_weight_percent
  rw [if_neg (fun hc => hc hlen), if_pos h]

theorem awfwp_invalidWeight (ms ws : List ℚ) (hlen : ms.length = ws.length)
    (hm : (ms.any (fun m => m ≤ 0)) = false)
    (h : (ws.any (fun w => w < 0)) = true) :
    atomic_weight_from_weight_percent ms ws = .error .invalidWeight := by
  unfold atomic_weight_from_weight_percent
  rw [if_neg (fun hc => hc hlen), if_neg (by simp [hm]), if_pos h]

theorem awfwp_degenerate (ms ws : List ℚ) (hlen : ms.length = ws.length)
    (hm : (ms.any (fun m => m ≤ 0)) = false)
    (hw : (ws.any (fun w => w < 0)) = false) (h : ws.sum = 0) :
    atomic_weight_from_weight_percent ms ws = .error .degenerateInput := by
  unfold atomic_weight_from_weight_percent
  rw [if_neg (fun hc => hc hlen), if_neg (by simp [hm]), if_neg (by simp [hw])]
  simp only [if_pos h]

theorem awfwp_ok (ms ws : List ℚ) (hlen : ms.length = ws.length)
    (hm : ∀ m ∈ ms, 0 < m) (hw : ∀ w ∈ ws, 0 ≤ w) (hs : ws.sum ≠ 0) :
    atomic_weight_from_weight_percent ms ws = .ok (ws.sum / sumDiv ws ms) := by
  have hd : 0 < sumDiv ws ms := sumDiv_pos ws ms hlen.symm hw hm hs
  have h2 : (ms.any (fun m => m ≤ 0)) = false := (any_nonpos_eq_false_iff ms).2 hm
  have h3 : (ws.any (fun w => w < 0)) = false := (any_neg_eq_false_iff ws).2 hw
  unfold atomic_weight_from_weight_percent
  rw [if_neg (fun hc => hc hlen), if_neg (by simp [h2]), if_neg (by simp [h3])]
  simp only [if_neg hs]
  by_cases hp : pyAbs (ws.sum - 100) < 1
  · rw [if_pos hp]
    simp only [if_neg (ne_of_gt hd)]
  · rw [if_neg hp]
    have hd2 : sumDiv (ws.map (fun w => w / ws.sum)) ms ≠ 0 := by
      rw [sumDiv_map_div]
      exact div_ne_zero (ne_of_gt hd) hs
    simp only [if_neg hd2]
    rw [sumDiv_map_div, one_div_div]

/-- C1: for equal-length masses and weights with all masses positive, all
weights nonnegative and a nonzero weight sum, the calculator computes
`total = Σ weights`; when `|total − 100| < 1` it returns
`total / Σ(wᵢ/mᵢ)`, and otherwise it normalizes each weight by `total` and
returns `1 / Σ(normalized wᵢ/mᵢ)`. -/
theorem c1_mode_detection (ms ws : List ℚ) (hlen : ms.length = ws.length)
    (hm : ∀ m ∈ ms, 0 < m) (hw : ∀ w ∈ ws, 0 ≤ w) (hs : ws.sum ≠ 0) :
    (|ws.sum - 100| < 1 →
      atomic_weight_from_weight_percent ms ws = .ok (ws.sum / sumDiv ws ms)) ∧
    (¬ |ws.sum - 100| < 1 →
      atomic_weight_from_weight_percent ms ws =
        .ok (1 / sumDiv (ws.map (fun w => w / ws.sum)) ms)) := by
  have hok := awfwp_ok ms ws hlen hm hw hs
  constructor
  · intro _
    exact hok
  · intro _
    rw [hok, sumDiv_map_div, one_div_div]

/-- Witness for C1 at masses `[2]`, weights `[100]` (the percent branch). -/
theorem c1_mode_detection_witness :
    atomic_weight_from_weight_percent [2] [100] =
      .ok (List.sum [(100 : ℚ)] / sumDiv [100] [2]) :=
  (c1_mode_detection [2] [100] rfl (by norm_num) (by norm_num) (by norm_num)).1
    (by norm_num)

/-- C7: under the preconditions, the denominator of either branch is strictly
positive in exact arithmetic, so the division-by-zero branch is unreachable. -/
theorem c7_denominator_positive (ms ws : List ℚ) (hlen : ms.length = ws.length)
    (hm : ∀ m ∈ ms, 0 < m) (hw : ∀ w ∈ ws, 0 ≤ w) (hs : ws.sum ≠ 0) :
    0 < sumDiv ws ms ∧
    0 < sumDiv (ws.map (fun w => w / ws.sum)) ms ∧
    atomic_weight_from_weight_percent ms ws ≠ .error .zeroDenominator := by
  have hd : 0 < sumDiv ws ms := sumDiv_pos ws ms hlen.symm hw hm hs
  have hsum : 0 < ws.sum :=
    lt_of_le_of_ne (List.sum_nonneg hw) (Ne.symm hs)
  refine ⟨hd, ?_, ?_⟩
  · rw [sumDiv_map_div]
    exact div_pos hd hsum
  · rw [awfwp_ok ms ws hlen hm hw hs]
    simp

/-- Witness for C7 at masses `[2]`, weights `[100]`. -/
theorem c7_denominator_positive_witness :
    0 < sumDiv [100] [2] ∧
    0 < sumDiv (List.map (fun w => w / List.sum [(100 : ℚ)]) [100]) [2] ∧
    atomic_weight_from_weight_percent [2] [100] ≠ .error .zeroDenominator :=
  c7_denominator_positive [2] [100] rfl (by norm_num) (by norm_num) (by norm_num)

/-- C4: the four precondition errors, each decided in the source's check
order: shape mismatch for unequal lengths; invalid mass once the lengths
agree and some mass is `≤ 0`; invalid weight once the masses are all
positive and some weight is negative; degenerate input once the weights are
all nonnegative and they sum to zero.  In each case an error (no value) is
returned. -/
theorem c4_precondition_errors (ms ws : List ℚ) :
    (atomic_weight_from_weight_percent ms ws = .error .shapeMismatch ↔
      ms.length ≠ ws.length) ∧
    (ms.length = ws.length →
      (atomic_weight_from_weight_percent ms ws = .error .invalidMass ↔
        ∃ m ∈ ms, m ≤ 0)) ∧
    (ms.length = ws.length → (∀ m ∈ ms, 0 < m) →
      (atomic_weight_from_weight_percent ms ws = .error .invalidWeight ↔
        ∃ w ∈ ws, w < 0)) ∧
    (ms.length = ws.length → (∀ m ∈ ms, 0 < m) → (∀ w ∈ ws, 0 ≤ w) →
      (atomic_weight_from_weight_percent ms ws = .error .degenerateInput ↔
        ws.sum = 0)) := by
  refine ⟨⟨fun h => ?_, awfwp_shape ms ws⟩,
    fun hlen => ⟨fun h => ?_, fun hex => ?_⟩,
    fun hlen hm => ⟨fun h => ?_, fun hex => ?_⟩,
    fun hlen hm hw => ⟨fun h => ?_, fun hz => ?_⟩⟩
  · by_contra hlen
    by_cases h2 : (ms.any (fun m => m ≤ 0)) = true
    · rw [awfwp_invalidMass ms ws hlen h2] at h
      simp at h
    · rw [Bool.not_eq_true] at h2
      by_cases h3 : (ws.any (fun w => w < 0)) = true
      · rw [awfwp_invalidWeight ms ws hlen h2 h3] at h
        simp at h
      · rw [Bool.not_eq_true] at h3
        by_cases h4 : ws.sum = 0
        · rw [awfwp_degenerate ms ws hlen h2 h3 h4] at h
          simp at h
        · rw [awfwp_ok ms ws hlen ((any_nonpos_eq_false_iff ms).1 h2)
            ((any_neg_eq_false_iff ws).1 h3) h4] at h
          simp at h
  · by_contra hex
    have h2 : (ms.any (fun m => m ≤ 0)) = false := by
      rw [any_nonpos_eq_false_iff]
      intro m hmem
      by_contra hc
      exact hex ⟨m, hmem, not_lt.1 hc⟩
    by_cases h3 : (ws.any (fun w => w < 0)) = true
    · rw [awfwp_invalidWeight ms ws hlen h2 h3] at h
      simp at h
    · rw [Bool.not_eq_true] at h3
      by_cases h4 : ws.sum = 0
      · rw [awfwp_degenerate ms ws hlen h2 h3 h4] at h
        simp at h
      · rw [awfwp_ok ms ws hlen ((any_nonpos_eq_false_iff ms).1 h2)
          ((any_neg_eq_false_iff ws).1 h3) h4] at h
        simp at h
  · exact awfwp_invalidMass ms ws hlen (by simpa [List.any_eq_true] using hex)
  · by_contra hex
    have h3 : (ws.any (fun w => w < 0)) = false := by
      rw [any_neg_eq_false_iff]
      intro w hmem
      by_contra hc
      exact hex ⟨w, hmem, not_le.1 hc⟩
    have h2 : (ms.any (fun m => m ≤ 0)) = false := (any_nonpos_eq_false_iff ms).2 hm
    by_cases h4 : ws.sum = 0
    · rw [awfwp_degenerate ms ws hlen h2 h3 h4] at h
      simp at h
    · rw [awfwp_ok ms ws hlen hm ((any_neg_eq_false_iff ws).1 h3) h4] at h
      simp at h
  · exact awfwp_invalidWeight ms ws hlen ((any_nonpos_eq_false_iff ms).2 hm)
      (by simpa [List.any_eq_true] using hex)
  · by_contra hz
    rw [awfwp_ok ms ws hlen hm hw hz] at h
    simp at h
  · exact awfwp_degenerate ms ws hlen ((any_nonpos_eq_false_iff ms).2 hm)
      ((any_neg_eq_false_iff ws).2 hw) hz

/-- Witness for C4: one concrete input per precondition error. -/
theorem c4_precondition_errors_witness :
    atomic_weight_from_weight_percent [1, 2, 3] [1, 2] = .error .shapeMismatch ∧
    atomic_weight_from_weight_percent [0, 2] [1, 2] = .error .invalidMass ∧
    atomic_weight_from_weight_percent [1, 2] [-1, 2] = .error .invalidWeight ∧
    atomic_weight_from_weight_percent [1, 2] [0, 0] = .error .degenerateInput :=
  ⟨(c4_precondition_errors [1, 2, 3] [1, 2]).1.2 (by norm_num),
   ((c4_precondition_errors [0, 2] [1, 2]).2.1 rfl).2 ⟨0, by norm_num⟩,
   ((c4_precondition_errors [1, 2] [-1, 2]).2.2.1 rfl (by norm_num)).2
     ⟨-1, by norm_num⟩,
   ((c4_precondition_errors [1, 2] [0, 0]).2.2.2 rfl (by norm_num)
     (by norm_num)).2 (by norm_num)⟩

/-! ### Minimum and maximum of a mass list -/

/-- The minimum of a list (`none` for the empty list). -/
def listMin : List ℚ → Option ℚ
  | [] => none
  | x :: xs => some (xs.foldl min x)

/-- The maximum of a list (`none` for the empty list). -/
def listMax : List ℚ → Option ℚ
  | [] => none
  | x :: xs => some (xs.foldl max x)

theorem foldl_min_le_init : ∀ (l : List ℚ) (a : ℚ), l.foldl min a ≤ a := by
  intro l
  induction l with
  | nil => intro a; simp
  | cons x xs ih =>
    intro a
    rw [List.foldl_cons]
    exact le_trans (ih (min a x)) (min_le_left a x)

theorem foldl_min_le_mem : ∀ (l : List ℚ) (a b : ℚ), b ∈ l → l.foldl min a ≤ b := by
  intro l
  induction l with
  | nil => intro a b hb; simp at hb
  | cons x xs ih =>
    intro a b hb
    rw [List.foldl_cons]
    rcases List.mem_cons.1 hb with rfl | hb'
    · exact le_trans (foldl_min_le_init xs (min a b)) (min_le_right a b)
    · exact ih (min a x) b hb'

theorem foldl_min_mem : ∀ (l : List ℚ) (a : ℚ), l.foldl min a ∈ a :: l := by
  intro l
  induction l with
  | nil => intro a; simp
  | cons x xs ih =>
    intro a
    rw [List.foldl_cons]
    rcases List.mem_cons.1 (ih (min a x)) with heq | hmem
    · rcases min_choice a x with h1 | h1
      · rw [heq, h1]
        exact List.mem_cons_self _ _
      · rw [heq, h1]
        exact List.mem_cons_of_mem _ (List.mem_cons_self _ _)
    · exact List.mem_cons_of_mem _ (List.mem_cons_of_mem _ hmem)

theorem init_le_foldl_max : ∀ (l : List ℚ) (a : ℚ), a ≤ l.foldl max a := by
  intro l
  induction l with
  | nil => intro a; simp
  | cons x xs ih =>
    intro a
    rw [List.foldl_cons]
    exact le_trans (le_max_left a x) (ih (max a x))

theorem mem_le_foldl_max : ∀ (l : List ℚ) (a b : ℚ), b ∈ l → b ≤ l.foldl max a := by
  intro l
  induction l with
  | nil => intro a b hb; simp at hb
  | cons x xs ih =>
    intro a b hb
    rw [List.foldl_cons]
    rcases List.mem_cons.1 hb with rfl | hb'
    · exact le_trans (le_max_right a b) (init_le_foldl_max xs (max a b))
    · exact ih (max a x) b hb'

theorem foldl_max_mem : ∀ (l : List ℚ) (a : ℚ), l.foldl max a ∈ a :: l := by
  intro l
  induction l with
  | nil => intro a; simp
  | cons x xs ih =>
    intro a
    rw [List.foldl_cons]
    rcases List.mem_cons.1 (ih (max a x)) with heq | hmem
    · rcases max_choice a x with h1 | h1
      · rw [heq, h1]
        exact List.mem_cons_self _ _
      · rw [heq, h1]
        exact List.mem_cons_of_mem _ (List.mem_cons_self _ _)
    · exact List.mem_cons_of_mem _ (List.mem_cons_of_mem _ hmem)

/-- C10: under the preconditions, the returned average lies between the
minimum and the maximum of the masses, inclusive, in exact arithmetic. -/
theorem c10_result_between_min_and_max (ms ws : List ℚ)
    (hlen : ms.length = ws.length) (hm : ∀ m ∈ ms, 0 < m)
    (hw : ∀ w ∈ ws, 0 ≤ w) (hs : ws.sum ≠ 0) :
    ∃ v lo hi, atomic_weight_from_weight_percent ms ws = .ok v ∧
      listMin ms = some lo ∧ listMax ms = some hi ∧ lo ≤ v ∧ v ≤ hi := by
  cases ms with
  | nil =>
    cases ws with
    | nil => simp at hs
    | cons w ws => simp at hlen
  | cons m0 ms' =>
    have hlen' : ws.length = (m0 :: ms').length := hlen.symm
    have hd : 0 < sumDiv ws (m0 :: ms') := sumDiv_pos ws (m0 :: ms') hlen' hw hm hs
    have htot : 0 < ws.sum := lt_of_le_of_ne (List.sum_nonneg hw) (Ne.symm hs)
    refine ⟨ws.sum / sumDiv ws (m0 :: ms'), ms'.foldl min m0, ms'.foldl max m0,
      awfwp_ok (m0 :: ms') ws hlen hm hw hs, rfl, rfl, ?_, ?_⟩
    · -- lower bound
      have hlo_pos : 0 < ms'.foldl min m0 :=
        hm (ms'.foldl min m0) (foldl_min_mem ms' m0)
      have hlo_le : ∀ m ∈ m0 :: ms', ms'.foldl min m0 ≤ m := by
        intro m hmem
        rcases List.mem_cons.1 hmem with rfl | hmem'
        · exact foldl_min_le_init ms' m
        · exact foldl_min_le_mem ms' m0 m hmem'
      have hle1 : sumDiv ws (m0 :: ms') ≤ ws.sum / ms'.foldl min m0 :=
        sumDiv_le_sum_div ws (m0 :: ms') (ms'.foldl min m0) hlo_pos hlen' hw hlo_le
      rw [le_div_iff₀ hd]
      calc ms'.foldl min m0 * sumDiv ws (m0 :: ms')
          ≤ ms'.foldl min m0 * (ws.sum / ms'.foldl min m0) := by gcongr
        _ = ws.sum := by field_simp
    · -- upper bound
      have hhi_pos : 0 < ms'.foldl max m0 :=
        hm (ms'.foldl max m0) (foldl_max_mem ms' m0)
      have hhi_ge : ∀ m ∈ m0 :: ms', 0 < m ∧ m ≤ ms'.foldl max m0 := by
        intro m hmem
        refine ⟨hm m hmem, ?_⟩
        rcases List.mem_cons.1 hmem with rfl | hmem'
        · exact init_le_foldl_max ms' m
        · exact mem_le_foldl_max ms' m0 m hmem'
      have hge1 : ws.sum / ms'.foldl max m0 ≤ sumDiv ws (m0 :: ms') :=
        sum_div_le_sumDiv ws (m0 :: ms') (ms'.foldl max m0) hlen' hw hhi_ge
      rw [div_le_iff₀ hd]
      calc ws.sum = ms'.foldl max m0 * (ws.sum / ms'.foldl max m0) := by field_simp
        _ ≤ ms'.foldl max m0 * sumDiv ws (m0 :: ms') := by gcongr

/-- Witness for C10 at masses `[2]`, weights `[100]`. -/
theorem c10_result_between_min_and_max_witness :
    ∃ v lo hi, atomic_weight_from_weight_percent [2] [100] = .ok v ∧
      listMin [2] = some lo ∧ listMax [2] = some hi ∧ lo ≤ v ∧ v ≤ hi :=
  c10_result_between_min_and_max [2] [100] rfl (by norm_num) (by norm_num)
    (by norm_num)

/-! ### Evaluating `atomic_weight` -/

theorem atomic_weight_found (symbol : PyStr) (db : IsoTable)
    (isos : List Isotope) (hfind : dbLookup (canonSymbol symbol) db = some isos) :
    atomic_weight symbol db =
      if pyAbs ((isos.map (fun i => i.abundance_percent)).sum - 100) > 1/2 then
        .error (.dataInconsistency (canonSymbol symbol)
          ((isos.map (fun i => i.abundance_percent)).sum))
      else
        .ok ((isos.map (fun i => i.abundance_percent / 100 * i.mass_u)).sum) := by
  simp only [atomic_weight, hfind]

/-- C2: whenever the lookup succeeds and the abundance-sum validation passes,
`atomic_weight` returns `Σ (abundanceᵢ/100) × massᵢ` over the symbol's
isotopes with no renormalization; in particular, when the abundances sum to
exactly 100 the result equals this sum within `10⁻⁹` (here: exactly). -/
theorem c2_weighted_sum (db : IsoTable) (symbol : PyStr) (isos : List Isotope)
    (hfind : dbLookup (canonSymbol symbol) db = some isos)
    (hval : |(isos.map (fun i => i.abundance_percent)).sum - 100| ≤ 1/2) :
    atomic_weight symbol db =
      .ok ((isos.map (fun i => i.abundance_percent / 100 * i.mass_u)).sum) ∧
    ((isos.map (fun i => i.abundance_percent)).sum = 100 →
      ∃ v, atomic_weight symbol db = .ok v ∧
        |v - (isos.map (fun i => i.abundance_percent / 100 * i.mass_u)).sum| ≤
          1 / 1000000000) := by
  have hc : ¬ pyAbs ((isos.map (fun i => i.abundance_percent)).sum - 100) > 1/2 := by
    rw [pyAbs_eq_abs]
    exact not_lt.2 hval
  have hok := atomic_weight_found symbol db isos hfind
  rw [if_neg hc] at hok
  refine ⟨hok, fun _ => ⟨_, hok, ?_⟩⟩
  simp

/-- Witness for C2: the built-in tin seed (abundances sum to exactly 100). -/
theorem c2_weighted_sum_witness :
    atomic_weight snSym seedDB =
      .ok ((snIsos.map (fun i => i.abundance_percent / 100 * i.mass_u)).sum) ∧
    ((snIsos.map (fun i => i.abundance_percent)).sum = 100 →
      ∃ v, atomic_weight snSym seedDB = .ok v ∧
        |v - (snIsos.map (fun i => i.abundance_percent / 100 * i.mass_u)).sum| ≤
          1 / 1000000000) :=
  c2_weighted_sum seedDB snSym snIsos rfl (by norm_num [snIsos])

/-- C5: for a symbol found in the table, `atomic_weight` fails with the
data-inconsistency error — carrying the canonical symbol and the observed
abundance sum — exactly when that sum deviates from 100 by more than 0.5,
and returns no value in that case. -/
theorem c5_data_inconsistency (db : IsoTable) (symbol : PyStr)
    (isos : List Isotope)
    (hfind : dbLookup (canonSymbol symbol) db = some isos) :
    (atomic_weight symbol db =
        .error (.dataInconsistency (canonSymbol symbol)
          ((isos.map (fun i => i.abundance_percent)).sum)) ↔
      1/2 < |(isos.map (fun i => i.abundance_percent)).sum - 100|) ∧
    (1/2 < |(isos.map (fun i => i.abundance_percent)).sum - 100| →
      ∀ q : ℚ, atomic_weight symbol db ≠ .ok q) := by
  have hok := atomic_weight_found symbol db isos hfind
  by_cases hc : pyAbs ((isos.map (fun i => i.abundance_percent)).sum - 100) > 1/2
  · rw [if_pos hc] at hok
    rw [pyAbs_eq_abs] at hc
    exact ⟨⟨fun _ => hc, fun _ => hok⟩, fun _ q hq => by rw [hok] at hq; simp at hq⟩
  · rw [if_neg hc] at hok
    rw [pyAbs_eq_abs] at hc
    constructor
    · constructor
      · intro h
        rw [hok] at h
        simp at h
      · intro h
        exact absurd h hc
    · intro h
      exact absurd h hc

/-- Witness for C5: a one-element table whose abundances sum to 90. -/
theorem c5_data_inconsistency_witness :
    atomic_weight [88, 121] [([88, 121], [⟨[88, 121], [88, 121], 10, 10, 90, true⟩])] =
      .error (.dataInconsistency (canonSymbol [88, 121])
        (([(⟨[88, 121], [88, 121], 10, 10, 90, true⟩ : Isotope)].map
          (fun i => i.abundance_percent)).sum)) :=
  (c5_data_inconsistency [([88, 121], [⟨[88, 121], [88, 121], 10, 10, 90, true⟩])]
    [88, 121] [⟨[88, 121], [88, 121], 10, 10, 90, true⟩] rfl).1.2 (by norm_num)

/-- C6 counterexample: at the empty supplied table (with no CSV present)
the canonical symbol Sn is absent from that table, yet the program does not
fail with a not-found error — `db = db or get_database()` substitutes the
default database, the table is replaced by the tin seed, and a value
(≈118.71) is returned. -/
theorem c6_empty_table_uses_default :
    dbLookup (canonSymbol snSym) [] = none ∧
    atomic_weight_py snSym (some []) none =
      .ok ((snIsos.map (fun i => i.abundance_percent / 100 * i.mass_u)).sum) := by
  have hval : ¬ pyAbs ((snIsos.map (fun i => i.abundance_percent)).sum - 100) >
      1/2 := by
    rw [pyAbs_eq_abs]
    norm_num [snIsos]
  have h2 := atomic_weight_found snSym seedDB snIsos rfl
  rw [if_neg hval] at h2
  exact ⟨rfl, h2⟩

/-- C6 (amended): for every nonempty (truthy) supplied table — an empty or
omitted table is first replaced by the default database — and every input
symbol whose canonical form is absent from that table, `atomic_weight`
fails with the not-found error identifying the canonical symbol and returns
no value, whatever CSV file is present. -/
theorem c6_not_found (db : IsoTable) (symbol : PyStr)
    (csvFile : Option (List CSVRow)) (hne : db ≠ [])
    (h : dbLookup (canonSymbol symbol) db = none) :
    atomic_weight_py symbol (some db) csvFile =
      .error (.notFound (canonSymbol symbol)) ∧
    ∀ q : ℚ, atomic_weight_py symbol (some db) csvFile ≠ .ok q := by
  have hsubst : atomic_weight_py symbol (some db) csvFile =
      atomic_weight symbol db := by
    simp only [atomic_weight_py, if_neg hne]
  have he : atomic_weight symbol db = .error (.notFound (canonSymbol symbol)) := by
    simp only [atomic_weight, h]
  rw [hsubst, he]
  exact ⟨rfl, fun q hq => by simp at hq⟩

/-- Witness for C6: the fabricated symbol `"Xx"` against the (nonempty) seed
table with no CSV present. -/
theorem c6_not_found_witness :
    atomic_weight_py [88, 120] (some seedDB) none =
      .error (.notFound (canonSymbol [88, 120])) ∧
    ∀ q : ℚ, atomic_weight_py [88, 120] (some seedDB) none ≠ .ok q :=
  c6_not_found seedDB [88, 120] none (by simp [seedDB]) rfl

/-! ### Symbol normalization (C8) -/

/-- The canonical case form of an already-stripped 1- or 2-character symbol:
one character is upper-cased; of two characters the first is upper-cased and
the second lower-cased (other lengths unchanged). -/
def caseCanon : PyStr → PyStr
  | [a] => [pyToUpper a]
  | [a, b] => [pyToUpper a, pyToLower b]
  | t => t

theorem canonSymbol_strip_one (s : PyStr) (a : Nat) (hstrip : pyStrip s = [a]) :
    canonSymbol s = [pyToUpper a] := by
  simp only [canonSymbol, hstrip]
  by_cases hl : s.length ≤ 2
  · rw [if_pos hl]
    simp [pyCapitalize, pyToUpper_idem]
  · rw [if_neg hl]

theorem canonSymbol_strip_two (s : PyStr) (a b : Nat)
    (hstrip : pyStrip s = [a, b]) :
    canonSymbol s = [pyToUpper a, pyToLower b] := by
  simp only [canonSymbol, hstrip]
  by_cases hl : s.length ≤ 2
  · rw [if_pos hl]
    simp [pyCapitalize, pyToUpper_idem, pyToLower_idem]
  · rw [if_neg hl]

theorem canonSymbol_fixed_one (a : Nat) (ha : pyIsSpace a = false) :
    canonSymbol [pyToUpper a] = [pyToUpper a] := by
  have h1 : pyIsSpace (pyToUpper a) = false := pyIsSpace_pyToUpper a ha
  rw [canonSymbol_strip_one [pyToUpper a] (pyToUpper a) (pyStrip_fixed_one _ h1),
    pyToUpper_idem]

theorem canonSymbol_fixed_two (a b : Nat) (ha : pyIsSpace a = false)
    (hb : pyIsSpace b = false) :
    canonSymbol [pyToUpper a, pyToLower b] = [pyToUpper a, pyToLower b] := by
  have h1 : pyIsSpace (pyToUpper a) = false := pyIsSpace_pyToUpper a ha
  have h2 : pyIsSpace (pyToLower b) = false := pyIsSpace_pyToLower b hb
  rw [canonSymbol_strip_two [pyToUpper a, pyToLower b] (pyToUpper a) (pyToLower b)
    (pyStrip_fixed_two _ _ h1 h2), pyToUpper_idem, pyToLower_idem]

/-- C8: `atomic_weight` canonicalizes its symbol — whitespace is trimmed, a
1-character symbol is upper-cased, a 2-character symbol gets its first
character upper-cased and its second lower-cased — and consequently any
whitespace-padded or case-variant spelling of a 1- or 2-character symbol is
treated the same as its canonical form, against every table. -/
theorem c8_symbol_normalization (db : IsoTable) (s : PyStr)
    (h : (pyStrip s).length = 1 ∨ (pyStrip s).length = 2) :
    canonSymbol s = caseCanon (pyStrip s) ∧
    atomic_weight s db = atomic_weight (caseCanon (pyStrip s)) db := by
  rcases h with h1 | h2
  · obtain ⟨a, ha⟩ := List.length_eq_one.1 h1
    have hsp : pyIsSpace a = false := pyStrip_singleton_no_space s a ha
    have e1 : canonSymbol s = [pyToUpper a] := canonSymbol_strip_one s a ha
    have e2 : caseCanon (pyStrip s) = [pyToUpper a] := by
      rw [ha]
      rfl
    have e3 : canonSymbol (caseCanon (pyStrip s)) = canonSymbol s := by
      rw [e2, e1, canonSymbol_fixed_one a hsp]
    refine ⟨by rw [e1, e2], ?_⟩
    simp only [atomic_weight, e3]
  · obtain ⟨a, b, hab⟩ := List.length_eq_two.1 h2
    obtain ⟨hsa, hsb⟩ := pyStrip_pair_no_space s a b hab
    have e1 : canonSymbol s = [pyToUpper a, pyToLower b] :=
      canonSymbol_strip_two s a b hab
    have e2 : caseCanon (pyStrip s) = [pyToUpper a, pyToLower b] := by
      rw [hab]
      rfl
    have e3 : canonSymbol (caseCanon (pyStrip s)) = canonSymbol s := by
      rw [e2, e1, canonSymbol_fixed_two a b hsa hsb]
    refine ⟨by rw [e1, e2], ?_⟩
    simp only [atomic_weight, e3]

/-- Witness for C8: the padded, case-variant spelling `" sN "` of `"Sn"`
against the seed table. -/
theorem c8_symbol_normalization_witness :
    canonSymbol [32, 115, 78, 32] = caseCanon (pyStrip [32, 115, 78, 32]) ∧
    atomic_weight [32, 115, 78, 32] seedDB =
      atomic_weight (caseCanon (pyStrip [32, 115, 78, 32])) seedDB :=
  c8_symbol_normalization seedDB [32, 115, 78, 32] (Or.inr (by decide))

/-! ### The loader's stability filter (C9) -/

@[simp] theorem allIsos_nil : allIsos [] = [] := rfl

@[simp] theorem allIsos_cons (s : PyStr) (l : List Isotope) (rest : IsoTable) :
    allIsos ((s, l) :: rest) = l ++ allIsos rest := by
  simp [allIsos]

theorem allIsos_dbInsert (db : IsoTable) (iso : Isotope) :
    List.Perm (allIsos (dbInsert db iso)) (iso :: allIsos db) := by
  induction db with
  | nil => simp [dbInsert]
  | cons p rest ih =>
    obtain ⟨s, l⟩ := p
    simp only [dbInsert]
    by_cases hsym : s = iso.symbol
    · rw [if_pos hsym]
      simp only [allIsos_cons]
      rw [List.append_assoc]
      exact List.perm_middle
    · rw [if_neg hsym]
      simp only [allIsos_cons]
      exact (ih.append_left l).trans List.perm_middle

theorem allIsos_foldl : ∀ (rows : List CSVRow) (db : IsoTable),
    List.Perm
      (allIsos (rows.foldl
        (fun db r => if rowStableOk r then dbInsert db (rowToIso r) else db) db))
      (allIsos db ++ (rows.filter rowStableOk).map rowToIso) := by
  intro rows
  induction rows with
  | nil => intro db; simp
  | cons r rs ih =>
    intro db
    rw [List.foldl_cons]
    by_cases hr : rowStableOk r
    · rw [if_pos hr, List.filter_cons_of_pos hr, List.map_cons]
      have h1 := ih (dbInsert db (rowToIso r))
      have h2 := (allIsos_dbInsert db (rowToIso r)).append_right
        ((rs.filter rowStableOk).map rowToIso)
      exact (h1.trans h2).trans List.perm_middle.symm
    · rw [if_neg hr, List.filter_cons_of_neg (by simpa using hr)]
      exact ih db

theorem allIsos_sortByA (db : IsoTable) :
    List.Perm
      (allIsos (db.map
        (fun p => (p.1, List.insertionSort (fun x y => x.A ≤ y.A) p.2))))
      (allIsos db) := by
  induction db with
  | nil => simp
  | cons p rest ih =>
    obtain ⟨s, l⟩ := p
    simp only [List.map_cons, allIsos_cons]
    exact (List.perm_insertionSort _ l).append ih

/-- C9 (amended): a CSV row contributes an `Isotope` record to the loaded
table exactly when its `stable` field — defaulting to `"True"` when the
field is absent — is, after trimming and lowercasing, one of the markers
`"true"`, `"1"`, `"yes"`, `"y"`: the records of the loaded table are a
permutation of the converted rows passing that filter.  (Rows with the
marker absent are therefore included, not excluded.) -/
theorem c9_loader_stability_filter (rows : List CSVRow) :
    List.Perm (allIsos (load_csv rows))
      ((rows.filter rowStableOk).map rowToIso) := by
  unfold load_csv
  exact (allIsos_sortByA _).trans ((allIsos_foldl rows []).trans (by simp))

/-- C9 counterexample: a row whose stability marker is absent defaults to
`"True"` and is included in the loaded table, where the claim says such rows
are excluded. -/
theorem c9_absent_marker_included :
    (⟨[], [], 1, 1, 1, none⟩ : CSVRow).stable = none ∧
    rowToIso ⟨[], [], 1, 1, 1, none⟩ ∈
      allIsos (load_csv [⟨[], [], 1, 1, 1, none⟩]) := by
  refine ⟨rfl, ?_⟩
  have h : allIsos (load_csv [(⟨[], [], 1, 1, 1, none⟩ : CSVRow)]) =
      [rowToIso ⟨[], [], 1, 1, 1, none⟩] := rfl
  rw [h]
  exact List.mem_singleton.mpr rfl

/-! ### The worked percent/fraction example (C3) -/

/-- The five plutonium isotopic masses of the worked example. -/
def pmMasses : List ℚ := [238.0496, 239.0522, 240.0538, 241.0568, 242.0587]

/-- The example's composition in weight percent. -/
def pmPercents : List ℚ := [15, 35, 15, 20, 15]

/-- The example's composition as mass fractions. -/
def pmFractions : List ℚ := [0.15, 0.35, 0.15, 0.20, 0.15]

/-- C3 counterexample: on the worked example the returned value differs from
240.333 by more than 0.4, so it is not ≈240.333 (it is ≈239.8967). -/
theorem c3_value_not_240_333 :
    ∃ v : ℚ, atomic_weight_from_weight_percent pmMasses pmPercents = .ok v ∧
      2/5 < |v - 240333/1000| := by
  refine ⟨100 / sumDiv pmPercents pmMasses, ?_, ?_⟩
  · norm_num [atomic_weight_from_weight_percent, pmMasses, pmPercents, sumDiv,
      pyAbs]
  · rw [lt_abs]
    right
    norm_num [pmMasses, pmPercents, sumDiv]

/-- C3 (amended): the percent call and the fraction call on the worked
example return the same value, equal to `100 / Σ(Wᵢ/mᵢ)`, which is
approximately 239.8967 (not 240.333). -/
theorem c3_percent_fraction_equivalence :
    atomic_weight_from_weight_percent pmMasses pmPercents =
      atomic_weight_from_weight_percent pmMasses pmFractions ∧
    atomic_weight_from_weight_percent pmMasses pmPercents =
      .ok (100 / sumDiv pmPercents pmMasses) ∧
    ∃ v : ℚ, atomic_weight_from_weight_percent pmMasses pmPercents = .ok v ∧
      |v - 2398967/10000| < 1/10000 := by
  have h1 : atomic_weight_from_weight_percent pmMasses pmPercents =
      .ok (100 / sumDiv pmPercents pmMasses) := by
    norm_num [atomic_weight_from_weight_percent, pmMasses, pmPercents, sumDiv,
      pyAbs]
  have h2 : atomic_weight_from_weight_percent pmMasses pmFractions =
      .ok (100 / sumDiv pmPercents pmMasses) := by
    norm_num [atomic_weight_from_weight_percent, pmMasses, pmPercents,
      pmFractions, sumDiv, pyAbs]
  refine ⟨h1.trans h2.symm, h1, 100 / sumDiv pmPercents pmMasses, h1, ?_⟩
  rw [abs_sub_lt_iff]
  constructor <;> norm_num [pmMasses, pmPercents, sumDiv]

end AtomicWeightRepo
